import Mathlib

/-!
Verification of the response-resolution utilities of this repository
(`filterModelProperties`, `filterResponseModels`, `getHttpMetadata`,
`getOperationResponse`, `getResultModelWithProperty`, `getSuccessResponse`,
`getStatusCodeProperty`, `getAllProperties`).

The TypeScript source is shallowly embedded: the read-only type graph becomes
an inductive `Model` (single inheritance, at most one base), insertion-ordered
`Map<string, ModelProperty>` values become association lists with JavaScript
`Map.set` semantics (update an existing key in place, otherwise append), and
the externally computed oracles (`isErrorModel` from the compiler,
`isStatusCode` from the http library) become boolean fields of `Program`.
The diagnostic sink is modelled by returning the list of diagnostics emitted
during a call.
-/

set_option autoImplicit false

namespace AzureUtils

/-- Literal type carried by a model property: the source inspects
`prop.type?.kind === "String"` (with a string literal `value`) and
`prop.type?.kind === "Number"` (with a numeric literal `value`); every other
kind of type falls into `other`. Status-code literals are integers, so the
numeric value is modelled as `Int`. -/
inductive PropType where
  | str (value : String)
  | num (value : Int)
  | other
  deriving DecidableEq, Repr

/-- A model property (field): its name and its (possibly absent) literal type.
The source reads `prop.type?.kind`, so the type is modelled as optional. -/
structure ModelProperty where
  name : String
  type : Option PropType
  deriving DecidableEq, Repr

/-- An insertion-ordered string-keyed map, as produced by iterating a
JavaScript `Map`: an association list whose keys are unique once built by
`mapSet`. -/
abbrev PropMap := List (String × ModelProperty)

/-- JavaScript `Map.set`: if the key is present, the value is replaced in
place (the key keeps its original position); otherwise the binding is
appended at the end. -/
def mapSet : PropMap → String → ModelProperty → PropMap
  | [], k, v => [(k, v)]
  | (k1, v1) :: t, k, v =>
    if k1 = k then (k1, v) :: t else (k1, v1) :: mapSet t k v

/-- JavaScript `Map.get`: the value at the first (in a well-formed map, only)
binding of the key. -/
def mapGet : PropMap → String → Option ModelProperty
  | [], _ => none
  | (k1, v1) :: t, k => if k1 = k then some v1 else mapGet t k

/-- The loop `for (const [name, value] of entries) out.set(name, value)`:
insert every binding of `l` into `acc`, in order, with `Map.set` semantics. -/
def setAll (acc : PropMap) (l : List (String × ModelProperty)) : PropMap :=
  l.foldl (fun a kv => mapSet a kv.1 kv.2) acc

/-- The key sequence of a map, in insertion order (`[...m.keys()]`). -/
def keysOf (m : PropMap) : List String :=
  m.map Prod.fst

/-- An object type of the type graph: a name, the insertion-ordered
properties declared directly on it, and at most one base model. The source
stores the base as an optional field; the optional base is encoded by the
two constructors, with `Model.baseModel` recovering the optional field. The
inductive encoding makes the (guaranteed) acyclicity of the inheritance
chain structural. -/
inductive Model where
  | leaf (name : String) (properties : PropMap)
  | sub (name : String) (properties : PropMap) (base : Model)

/-- The name of a model. -/
def Model.name : Model → String
  | .leaf n _ => n
  | .sub n _ _ => n

/-- The properties declared directly on a model (`model.properties`). -/
def Model.properties : Model → PropMap
  | .leaf _ ps => ps
  | .sub _ ps _ => ps

/-- The optional base model (`model.baseModel`). -/
def Model.baseModel : Model → Option Model
  | .leaf _ _ => none
  | .sub _ _ b => some b

/-- Source `getAllProperties(model, collection?)`: seed the accumulator with
the given collection (or a fresh empty map), `Map.set` every directly
declared property, then recurse into the base model with the same
accumulator when one is present. -/
def getAllProperties : Model → Option PropMap → PropMap
  | .leaf _ props, collection => setAll (collection.getD []) props
  | .sub _ props base, collection =>
      getAllProperties base (some (setAll (collection.getD []) props))

/-- Source `filterModelProperties(model, predicate)`:
`[...getAllProperties(model).values()].filter(predicate)`. -/
def filterModelProperties (model : Model) (predicate : ModelProperty → Bool) :
    List ModelProperty :=
  ((getAllProperties model none).map Prod.snd).filter predicate

/-- A type appearing as a union variant's type or a tuple element: the source
only ever asks whether its `kind` is `"Model"`, so everything else is
collapsed into `other`. -/
inductive Ty where
  | model (m : Model)
  | other

/-- The declared body type of one response (`response.type`): a model, a
union of types, a tuple of types, or any other kind (ignored by the
normalizer's `switch`, which has no default case). -/
inductive ResponseBody where
  | model (m : Model)
  | union (variants : List Ty)
  | tuple (values : List Ty)
  | other

/-- One response of an http operation; only its declared body type is
relevant here. -/
structure HttpResponse where
  type : ResponseBody

/-- An http operation: its responses, in declaration order. -/
structure HttpOperation where
  responses : List HttpResponse

/-- An operation together with its resolved http metadata. The external
`getHttpOperation` accessor of the http library (an inbound collaborator,
not part of this module) is modelled as the projection to the `http` field,
returning no diagnostics of its own. -/
structure Operation where
  name : String
  http : HttpOperation

/-- The host compilation context, reduced to the two externally computed
oracles the source consults: `isErrorModel(program, model)` from the
compiler and `isStatusCode(program, prop)` from the http library. -/
structure Program where
  isErrorModel : Model → Bool
  isStatusCode : ModelProperty → Bool

/-- Modelled from the spec: the diagnostic sink (`reportDiagnostic` of
`lib.js`, which is not part of this slice) appends one structured diagnostic
`report(code, target)` with the offending operation as the target; emission
is modelled by returning the list of diagnostics emitted during a call. -/
structure Diagnostic where
  code : String
  target : Operation

/-- The body of the `Union` and `Tuple` cases of the normalizer's `switch`:
`for (x of types) if (x.kind === "Model" && predicate(x)) models.push(x)`,
starting from the models pushed so far. -/
def pushMatching (predicate : Model → Bool) (models : List Model)
    (types : List Ty) : List Model :=
  types.foldl
    (fun acc t =>
      match t with
      | .model m => if predicate m then acc ++ [m] else acc
      | .other => acc)
    models

/-- The body of the `for (const response of operation.responses)` loop of
`filterResponseModels`: switch on the body kind (`Model` / `Union` /
`Tuple`; the `switch` has no default case, so anything else is ignored) and
push every matching model. -/
def responseStep (predicate : Model → Bool) (models : List Model)
    (response : HttpResponse) : List Model :=
  match response.type with
  | .model m => if predicate m then models ++ [m] else models
  | .union variants => pushMatching predicate models variants
  | .tuple values => pushMatching predicate models values
  | .other => models

/-- Source `filterResponseModels(operation, predicate)`: walk the responses
in order, collect the matching models (`responseStep` is the loop body),
and return `undefined` instead of an empty list. -/
def filterResponseModels (operation : HttpOperation)
    (predicate : Model → Bool) : Option (List Model) :=
  let models := operation.responses.foldl (responseStep predicate) []
  if models.length > 0 then some models else none

/-- Source `getHttpMetadata(program, operation)`: resolve the operation's
http metadata through the external accessor (modelled as the `http` field)
and forward any diagnostics it produced (none in this model). -/
def getHttpMetadata (_program : Program) (operation : Operation) :
    HttpOperation :=
  operation.http

/-- Source `getStatusCodeProperty(program, model)`: the first property of
the flattened property set for which `isStatusCode` holds, or nothing. -/
def getStatusCodeProperty (program : Program) (model : Model) :
    Option ModelProperty :=
  let properties :=
    filterModelProperties model (fun prop => program.isStatusCode prop)
  match properties with
  | [] => none
  | p :: _ => some p

/-- The inline arrow function of `getSuccessResponse`'s `.filter`: the
status-code property is absent, or its type is a string literal starting
with `"2"`, or a numeric literal with `200 <= value && value < 300`; any
other shape of the property's type makes the test false. -/
def statusCodeFilter (program : Program) (m : Model) : Bool :=
  let prop := getStatusCodeProperty program m
  match prop with
  | none => true
  | some prop =>
    match prop.type with
    | some (PropType.str v) => v.startsWith "2"
    | some (PropType.num v) => decide (200 ≤ v) && decide (v < 300)
    | _ => false

/-- Source `getSuccessResponse(program, operation)`: filter the responses to
the non-error models, keep those passing `statusCodeFilter` (the inline
arrow function of the source), and return the first survivor, or nothing. -/
def getSuccessResponse (program : Program) (operation : HttpOperation) :
    Option Model :=
  let candidates :=
    (filterResponseModels operation
        (fun response => !(program.isErrorModel response))).map
      (fun ms => ms.filter (statusCodeFilter program))
  match candidates with
  | none => none
  | some cs =>
    match cs with
    | [] => none
    | c :: _ => some c

/-- Source `getOperationResponse(program, operation)`: classify the success
response; if there is none, report one `expected-success-response`
diagnostic targeting the operation, and return the (absent) response either
way — the `response!` in the source is only a type assertion, the returned
value on the diagnostic path is `undefined` itself. The second component is
the list of diagnostics emitted during the call. -/
def getOperationResponse (program : Program) (operation : Operation) :
    Option Model × List Diagnostic :=
  let response := getSuccessResponse program (getHttpMetadata program operation)
  match response with
  | none => (none, [⟨"expected-success-response", operation⟩])
  | some m => (some m, [])

/-- Source `getResultModelWithProperty(program, operation, predicate)`:
select the response models whose flattened property set has a match, take
the first, and return it with the first match among its directly declared
properties (`models[0].properties`, not the flattened set), or nothing. -/
def getResultModelWithProperty (program : Program) (operation : Operation)
    (predicate : ModelProperty → Bool) : Option (Model × ModelProperty) :=
  let httpOperation := getHttpMetadata program operation
  let models := filterResponseModels httpOperation
    (fun model => (filterModelProperties model predicate).length > 0)
  match models with
  | none => none
  | some ms =>
    match ms with
    | [] => none
    | m :: _ =>
      match (m.properties.map Prod.snd).filter predicate with
      | [] => none
      | p :: _ => some (m, p)

/-! Spec-level descriptions, written from the specification's words, to be
compared with the functions embedded from the source. -/

/-- The model carried by a union variant or tuple element, if it is one. -/
def tyModel : Ty → Option Model
  | .model m => some m
  | .other => none

/-- Spec-level: the concrete object types reachable from one response body —
the body itself if it is an object type, the object-type variants of a
union, the object-type elements of a tuple, in declaration order; anything
else contributes nothing. -/
def responseObjectTypes : ResponseBody → List Model
  | .model m => [m]
  | .union variants => variants.filterMap tyModel
  | .tuple values => values.filterMap tyModel
  | .other => []

/-- Spec-level: all object types reachable from an operation's responses, in
declaration order across responses. -/
def operationObjectTypes (op : HttpOperation) : List Model :=
  (op.responses.map (fun r => responseObjectTypes r.type)).flatten

/-- Spec-level normalizer: the in-order sequence of all matching object
types across all responses, with the absent sentinel — never an empty
sequence — when nothing matched. -/
def specNormalize (op : HttpOperation) (pred : Model → Bool) :
    Option (List Model) :=
  match (operationObjectTypes op).filter pred with
  | [] => none
  | ms => some ms

/-- Spec-level success condition on one candidate: either no field is tagged
as the status-code field, or the status-code field's literal value is a
string beginning with `"2"`, or its literal numeric value lies in
`[200, 300)`. -/
def specStatusAllows (program : Program) (m : Model) : Bool :=
  match getStatusCodeProperty program m with
  | none => true
  | some prop =>
    match prop.type with
    | some (PropType.str v) => v.startsWith "2"
    | some (PropType.num v) => decide (200 ≤ v ∧ v < 300)
    | _ => false

/-- The concatenation of the directly declared property lists along the
inheritance chain, leaf first — the exact insertion order `getAllProperties`
feeds into its accumulator. -/
def chainProps : Model → List (String × ModelProperty)
  | .leaf _ props => props
  | .sub _ props base => props ++ chainProps base

/-- The last binding of a key in a binding list: with the leaf-first
insertion order of `chainProps`, this is the declaration from the base-most
(closest to the root) type of the chain that declares the name. -/
def lastBind : List (String × ModelProperty) → String → Option ModelProperty
  | [], _ => none
  | (k1, v1) :: t, k =>
    match lastBind t k with
    | some v => some v
    | none => if k1 = k then some v1 else none

/-- Spec-level description of what the flattened map associates to a name,
as forced by the overwriting `Map.set` of the source: the declaration from
the base-most type in the chain that declares the name. -/
def baseMostDeclaration (m : Model) (k : String) : Option ModelProperty :=
  lastBind (chainProps m) k

/-- The keys of a binding list that are not already among `ks`, in order of
first occurrence. -/
def newKeys : List String → List (String × ModelProperty) → List String
  | _, [] => []
  | ks, (k, _) :: t =>
    if k ∈ ks then newKeys ks t else k :: newKeys (ks ++ [k]) t

/-! A reference-graph presentation of the same flattening recursion, for the
termination analysis: the inheritance edge is an optional reference into a
type graph instead of a structural subterm, so cyclic graphs are
representable, and the recursion is instrumented with explicit fuel (one
unit per call, i.e. per type visited) and with the list of visited types. -/

/-- An object type of the reference-graph presentation: as `Model`, but the
base is a reference (by name) into a type graph. -/
structure GModel where
  name : String
  properties : PropMap
  baseModel : Option String
  deriving DecidableEq, Repr

/-- The source `getAllProperties` recursion over a type graph `g`, with
explicit fuel: `none` means the fuel was exhausted with the recursion still
running. On success it returns the accumulated map together with the list of
types visited, in visiting order (leaf to base). -/
def getAllPropertiesG (g : String → GModel) :
    Nat → String → PropMap → Option (PropMap × List String)
  | 0, _, _ => none
  | Nat.succ fuel, id, acc =>
    let m := g id
    let out := setAll acc m.properties
    match m.baseModel with
    | some b =>
      match getAllPropertiesG g fuel b out with
      | some (r, visited) => some (r, id :: visited)
      | none => none
    | none => some (out, [id])

/-- The acyclic-chain precondition: `l` is the inheritance chain of `id` in
graph `g` — it starts at `id`, follows the `baseModel` references, and ends
at a type with no base. Such a finite chain exists exactly when the
inheritance path from `id` is acyclic. -/
inductive IsChain (g : String → GModel) : String → List String → Prop where
  | root (id : String) : (g id).baseModel = none → IsChain g id [id]
  | step (id b : String) (l : List String) :
      (g id).baseModel = some b → IsChain g b l → IsChain g id (id :: l)

/-- Divergence of the graph recursion at `id`: no amount of fuel makes it
return — the recursion never completes, i.e. the source loops. -/
def neverReturns (g : String → GModel) (id : String) : Prop :=
  ∀ f acc, getAllPropertiesG g f id acc = none

/-! Concrete instances used by the counterexamples and witnesses. -/

/-- The grandparent's declaration of `id` (a numeric field). -/
def gpIdProp : ModelProperty := ⟨"id", some (PropType.num 1)⟩

/-- The parent's declaration of `id` (a different numeric field). -/
def parentIdProp : ModelProperty := ⟨"id", some (PropType.num 2)⟩

/-- The child's own declaration of `id` (a string field). -/
def childIdProp : ModelProperty := ⟨"id", some (PropType.str "c")⟩

/-- Root of a 3-level chain, declaring `id`. -/
def exGrandparent : Model := .leaf "Grandparent" [("id", gpIdProp)]

/-- Middle of the 3-level chain, redeclaring `id`. -/
def exParent : Model := .sub "Parent" [("id", parentIdProp)] exGrandparent

/-- Leaf of the 3-level chain, redeclaring `id` once more. -/
def exChild : Model := .sub "Child" [("id", childIdProp)] exParent

/-- A field named `code`, declared only on a base model. -/
def exCodeProp : ModelProperty := ⟨"code", some (PropType.num 200)⟩

/-- An unrelated field declared on the derived model. -/
def exXProp : ModelProperty := ⟨"x", none⟩

/-- Base model declaring the `code` field. -/
def exBase : Model := .leaf "Base" [("code", exCodeProp)]

/-- Derived model: no direct `code` field, inherits it from `exBase`. -/
def exDerived : Model := .sub "Derived" [("x", exXProp)] exBase

/-- An operation whose single response body is `exDerived`. -/
def exOp : Operation := ⟨"exOp", ⟨[⟨ResponseBody.model exDerived⟩]⟩⟩

/-- A program in which nothing is an error model and a property is the
status-code field exactly when it is named `status`. -/
def exProg : Program := ⟨fun _ => false, fun p => p.name == "status"⟩

/-- The property predicate "is named `code`". -/
def codePred : ModelProperty → Bool := fun p => p.name == "code"

/-- A model tagged as an error type by `errProg`. -/
def errModel : Model := .leaf "Err" []

/-- A program in which every model is an error model. -/
def errProg : Program := ⟨fun _ => true, fun _ => false⟩

/-- An operation whose only response body is the error model: it has no
success response. -/
def errOp : Operation := ⟨"errOp", ⟨[⟨ResponseBody.model errModel⟩]⟩⟩

/-- A status-code field with literal value 204, declared only on a base. -/
def scProp : ModelProperty := ⟨"status", some (PropType.num 204)⟩

/-- Base model declaring the status-code field. -/
def scBase : Model := .leaf "SCBase" [("status", scProp)]

/-- Derived model inheriting the status-code field from `scBase`. -/
def scDerived : Model := .sub "SCDerived" [("x", exXProp)] scBase

/-- Root node of a two-node acyclic type graph. -/
def gRoot : GModel := ⟨"A", [("id", gpIdProp)], none⟩

/-- Leaf node of the two-node graph, based on `gRoot`. -/
def gLeaf : GModel := ⟨"B", [("x", exXProp)], some "A"⟩

/-- A two-node acyclic type graph: `B`'s base is `A`, `A` is a root. -/
def exGraph : String → GModel := fun id =>
  match id with
  | "B" => gLeaf
  | _ => gRoot

/-- A cyclic type graph: every type is its own base — the upstream
acyclicity guarantee is violated. -/
def cycGraph : String → GModel := fun _ => ⟨"A", [], some "A"⟩

/-! Lemmas about the `Map.set` association-list semantics. -/

theorem mapGet_mapSet : ∀ (m : PropMap) (k k2 : String) (v : ModelProperty),
    mapGet (mapSet m k v) k2 = if k = k2 then some v else mapGet m k2 := by
  intro m k k2 v
  induction m with
  | nil => simp [mapSet, mapGet]
  | cons kv t ih =>
    obtain ⟨k1, v1⟩ := kv
    by_cases h : k1 = k
    · subst h
      simp only [mapSet, if_pos rfl, mapGet]
      split_ifs <;> rfl
    · simp only [mapSet, if_neg h, mapGet, ih]
      by_cases h2 : k1 = k2
      · subst h2
        have hne : ¬k = k1 := fun hh => h hh.symm
        simp [hne]
      · simp [h2]

theorem keysOf_mapSet : ∀ (m : PropMap) (k : String) (v : ModelProperty),
    keysOf (mapSet m k v) =
      if k ∈ keysOf m then keysOf m else keysOf m ++ [k] := by
  intro m k v
  induction m with
  | nil => simp [mapSet, keysOf]
  | cons kv t ih =>
    obtain ⟨k1, v1⟩ := kv
    by_cases h : k1 = k
    · subst h
      simp [mapSet, keysOf]
    · have hne : ¬k = k1 := fun hh => h hh.symm
      simp only [keysOf, List.map_cons] at ih ⊢
      simp only [mapSet, if_neg h, List.map_cons, List.mem_cons, hne,
        false_or, ih]
      by_cases hm : k ∈ List.map Prod.fst t
      · simp [hm]
      · simp [hm]

@[simp] theorem setAll_nil (acc : PropMap) : setAll acc [] = acc := rfl

@[simp] theorem setAll_cons (acc : PropMap) (k : String) (v : ModelProperty)
    (t : List (String × ModelProperty)) :
    setAll acc ((k, v) :: t) = setAll (mapSet acc k v) t := rfl

theorem setAll_append (acc : PropMap) (l1 l2 : List (String × ModelProperty)) :
    setAll acc (l1 ++ l2) = setAll (setAll acc l1) l2 := by
  simp [setAll, List.foldl_append]

theorem mapGet_setAll : ∀ (l : List (String × ModelProperty)) (acc : PropMap)
    (k : String),
    mapGet (setAll acc l) k =
      match lastBind l k with
      | some v => some v
      | none => mapGet acc k := by
  intro l
  induction l with
  | nil => intro acc k; simp [lastBind]
  | cons kv t ih =>
    intro acc k
    obtain ⟨k1, v1⟩ := kv
    rw [setAll_cons, ih]
    simp only [lastBind]
    cases h : lastBind t k with
    | some v => rfl
    | none =>
      rw [mapGet_mapSet]
      by_cases h2 : k1 = k
      · subst h2; simp
      · have hne : ¬k = k1 := fun hh => h2 hh.symm
        simp [h2, hne]

theorem keysOf_setAll : ∀ (l : List (String × ModelProperty)) (acc : PropMap),
    keysOf (setAll acc l) = keysOf acc ++ newKeys (keysOf acc) l := by
  intro l
  induction l with
  | nil => intro acc; simp [newKeys]
  | cons kv t ih =>
    intro acc
    obtain ⟨k, v⟩ := kv
    rw [setAll_cons, ih, keysOf_mapSet]
    simp only [newKeys]
    split_ifs with h
    · rfl
    · simp [List.append_assoc]

theorem mapGet_eq_none : ∀ (m : PropMap) (k : String),
    k ∉ keysOf m → mapGet m k = none := by
  intro m
  induction m with
  | nil => intro k _; rfl
  | cons kv t ih =>
    intro k h
    obtain ⟨k1, v1⟩ := kv
    simp only [keysOf, List.map_cons, List.mem_cons, not_or] at h
    have hne : ¬k1 = k := fun hh => h.1 hh.symm
    simp only [mapGet, if_neg hne]
    exact ih k h.2

theorem mem_newKeys : ∀ (l : List (String × ModelProperty)) (ks : List String)
    (k : String),
    k ∈ newKeys ks l ↔ (k ∉ ks ∧ k ∈ l.map Prod.fst) := by
  intro l
  induction l with
  | nil => intro ks k; simp [newKeys]
  | cons kv t ih =>
    intro ks k
    obtain ⟨k1, v1⟩ := kv
    simp only [newKeys, List.map_cons, List.mem_cons]
    split_ifs with h
    · rw [ih]
      constructor
      · rintro ⟨hk, hm⟩
        exact ⟨hk, Or.inr hm⟩
      · rintro ⟨hk, rfl | hm⟩
        · exact absurd h hk
        · exact ⟨hk, hm⟩
    · constructor
      · intro hmem
        rcases List.mem_cons.mp hmem with rfl | hmem2
        · exact ⟨h, Or.inl rfl⟩
        · obtain ⟨hk, hm⟩ := (ih (ks ++ [k1]) k).mp hmem2
          rw [List.mem_append] at hk
          push_neg at hk
          exact ⟨hk.1, Or.inr hm⟩
      · rintro ⟨hk, rfl | hm⟩
        · exact List.mem_cons_self _ _
        · by_cases hkk : k = k1
          · subst hkk
            exact List.mem_cons_self _ _
          · refine List.mem_cons_of_mem _ ?_
            refine (ih (ks ++ [k1]) k).mpr ⟨?_, hm⟩
            rw [List.mem_append]
            push_neg
            exact ⟨hk, by simp [hkk]⟩

theorem newKeys_eq_nil : ∀ (l : List (String × ModelProperty))
    (ks : List String),
    (∀ k ∈ l.map Prod.fst, k ∈ ks) → newKeys ks l = [] := by
  intro l
  induction l with
  | nil => intro ks _; rfl
  | cons kv t ih =>
    intro ks h
    obtain ⟨k1, v1⟩ := kv
    have h1 : k1 ∈ ks := h k1 (by simp)
    simp only [newKeys, if_pos h1]
    exact ih ks (fun k hk => h k (by simp [hk]))

theorem nodup_append_newKeys : ∀ (l : List (String × ModelProperty))
    (ks : List String), ks.Nodup → (ks ++ newKeys ks l).Nodup := by
  intro l
  induction l with
  | nil => intro ks h; simpa [newKeys]
  | cons kv t ih =>
    intro ks h
    obtain ⟨k1, v1⟩ := kv
    simp only [newKeys]
    split_ifs with hmem
    · exact ih ks h
    · have hrw : ks ++ k1 :: newKeys (ks ++ [k1]) t =
          (ks ++ [k1]) ++ newKeys (ks ++ [k1]) t := by
        simp
      rw [hrw]
      refine ih (ks ++ [k1]) ?_
      simp [List.nodup_append, h, hmem]

theorem mapExt : ∀ (m1 m2 : PropMap), keysOf m1 = keysOf m2 →
    (keysOf m1).Nodup → (∀ k, mapGet m1 k = mapGet m2 k) → m1 = m2 := by
  intro m1
  induction m1 with
  | nil =>
    intro m2 hk _ _
    cases m2 with
    | nil => rfl
    | cons kv t => simp [keysOf] at hk
  | cons kv t ih =>
    intro m2 hk hnd hget
    obtain ⟨k1, v1⟩ := kv
    cases m2 with
    | nil => simp [keysOf] at hk
    | cons kv2 t2 =>
      obtain ⟨k2, v2⟩ := kv2
      simp only [keysOf, List.map_cons, List.cons.injEq] at hk
      obtain ⟨hk12, hkt⟩ := hk
      subst hk12
      simp only [keysOf, List.map_cons, List.nodup_cons] at hnd
      obtain ⟨hk1, hndt⟩ := hnd
      have hv : v1 = v2 := by
        have hh := hget k1
        simpa [mapGet] using hh
      subst hv
      have hk2 : k1 ∉ List.map Prod.fst t2 := hkt ▸ hk1
      have htails : t = t2 := by
        refine ih t2 hkt hndt ?_
        intro k
        by_cases hkk : k = k1
        · subst hkk
          rw [mapGet_eq_none t k hk1, mapGet_eq_none t2 k hk2]
        · have hh := hget k
          have hne : ¬k1 = k := fun hhh => hkk hhh.symm
          simpa [mapGet, if_neg hne] using hh
      rw [htails]

theorem nodup_keysOf_setAll (l : List (String × ModelProperty)) :
    (keysOf (setAll [] l)).Nodup := by
  rw [keysOf_setAll]
  simpa [keysOf] using nodup_append_newKeys l [] List.nodup_nil

theorem setAll_idem (l : List (String × ModelProperty)) (acc : PropMap)
    (h : (keysOf acc).Nodup) : setAll (setAll acc l) l = setAll acc l := by
  have hnd : (keysOf (setAll acc l)).Nodup := by
    rw [keysOf_setAll]
    exact nodup_append_newKeys l (keysOf acc) h
  have hsub : ∀ k ∈ l.map Prod.fst, k ∈ keysOf (setAll acc l) := by
    intro k hk
    rw [keysOf_setAll, List.mem_append, mem_newKeys]
    by_cases hm : k ∈ keysOf acc
    · exact Or.inl hm
    · exact Or.inr ⟨hm, hk⟩
  have hkeys : keysOf (setAll (setAll acc l) l) = keysOf (setAll acc l) := by
    rw [keysOf_setAll l (setAll acc l), newKeys_eq_nil l _ hsub,
      List.append_nil]
  refine mapExt _ _ hkeys (hkeys ▸ hnd) ?_
  intro k
  rw [mapGet_setAll l (setAll acc l) k, mapGet_setAll l acc k]
  cases h2 : lastBind l k with
  | some v => rfl
  | none => rfl

/-! The flattening recursion versus the chain-level description. -/

theorem getAllProperties_eq : ∀ (m : Model) (c : Option PropMap),
    getAllProperties m c = setAll (c.getD []) (chainProps m)
  | .leaf _ _, _ => rfl
  | .sub _ props base, c => by
    show getAllProperties base (some (setAll (c.getD []) props)) = _
    rw [getAllProperties_eq base]
    simp only [chainProps, setAll_append, Option.getD]

theorem mapGet_getAllProperties (m : Model) (k : String) :
    mapGet (getAllProperties m none) k = baseMostDeclaration m k := by
  rw [getAllProperties_eq, mapGet_setAll]
  unfold baseMostDeclaration
  cases h : lastBind (chainProps m) k <;> rfl

theorem nodup_keysOf_getAllProperties (m : Model) :
    (keysOf (getAllProperties m none)).Nodup := by
  rw [getAllProperties_eq]
  exact nodup_keysOf_setAll (chainProps m)

theorem mem_values_iff : ∀ (m : PropMap), (keysOf m).Nodup →
    ∀ f : ModelProperty, (f ∈ m.map Prod.snd ↔ ∃ k, mapGet m k = some f) := by
  intro m
  induction m with
  | nil => intro _ f; simp [mapGet]
  | cons kv t ih =>
    intro hnd f
    obtain ⟨k1, v1⟩ := kv
    simp only [keysOf, List.map_cons, List.nodup_cons] at hnd
    obtain ⟨hk1, hndt⟩ := hnd
    simp only [List.map_cons, List.mem_cons]
    constructor
    · rintro (rfl | hf)
      · exact ⟨k1, by simp [mapGet]⟩
      · obtain ⟨k, hk⟩ := (ih hndt f).mp hf
        refine ⟨k, ?_⟩
        have hne : ¬k1 = k := by
          rintro rfl
          rw [mapGet_eq_none t k1 hk1] at hk
          cases hk
        simp [mapGet, if_neg hne, hk]
    · rintro ⟨k, hk⟩
      by_cases h : k1 = k
      · subst h
        simp only [mapGet, eq_self_iff_true, if_true] at hk
        cases hk
        exact Or.inl rfl
      · simp only [mapGet, if_neg h] at hk
        exact Or.inr ((ih hndt f).mpr ⟨k, hk⟩)

/-! The response normalizer versus the spec-level description. -/

theorem pushMatching_eq : ∀ (ts : List Ty) (pred : Model → Bool)
    (acc : List Model),
    pushMatching pred acc ts = acc ++ (ts.filterMap tyModel).filter pred := by
  intro ts
  induction ts with
  | nil => intro pred acc; simp [pushMatching]
  | cons t ts ih =>
    intro pred acc
    have hstep : ∀ a, pushMatching pred a (t :: ts) =
        pushMatching pred
          (match t with
            | Ty.model m => if pred m then a ++ [m] else a
            | Ty.other => a) ts := fun _ => rfl
    rw [hstep]
    cases t with
    | model m =>
      by_cases h : pred m <;>
        simp [ih, tyModel, List.filterMap_cons, List.filter_cons, h,
          List.append_assoc]
    | other => simp [ih, tyModel, List.filterMap_cons]

theorem responseStep_eq (pred : Model → Bool) (acc : List Model)
    (r : HttpResponse) :
    responseStep pred acc r =
      acc ++ (responseObjectTypes r.type).filter pred := by
  unfold responseStep responseObjectTypes
  cases r.type with
  | model m => by_cases h : pred m <;> simp [List.filter_cons, h]
  | union vs => exact pushMatching_eq vs pred acc
  | tuple vs => exact pushMatching_eq vs pred acc
  | other => simp

theorem foldl_responseStep : ∀ (rs : List HttpResponse) (pred : Model → Bool)
    (acc : List Model),
    rs.foldl (responseStep pred) acc =
      acc ++
        ((rs.map (fun r => responseObjectTypes r.type)).flatten).filter pred := by
  intro rs
  induction rs with
  | nil => intro pred acc; simp
  | cons r rs ih =>
    intro pred acc
    rw [List.foldl_cons, ih, responseStep_eq]
    simp [List.filter_append, List.append_assoc]

theorem filterResponseModels_eq (op : HttpOperation) (pred : Model → Bool) :
    filterResponseModels op pred = specNormalize op pred := by
  unfold filterResponseModels specNormalize operationObjectTypes
  rw [foldl_responseStep]
  simp only [List.nil_append]
  cases h : ((op.responses.map (fun r => responseObjectTypes r.type)).flatten).filter pred with
  | nil => simp
  | cons c cs => simp

/-- Filtering by a conjunction is filtering twice (used to relate the
two-phase candidate filtering of the source to the spec's single pass). -/
theorem filter_and_eq {α : Type} (p q : α → Bool) (l : List α) :
    l.filter (fun a => p a && q a) = (l.filter p).filter q := by
  induction l with
  | nil => rfl
  | cons x xs ih =>
    by_cases hp : p x
    · by_cases hq : q x <;> simp [List.filter_cons, hp, hq, ih]
    · simp [List.filter_cons, hp, ih]

theorem statusCodeFilter_eq_spec (program : Program) (m : Model) :
    statusCodeFilter program m = specStatusAllows program m := by
  simp only [statusCodeFilter, specStatusAllows]
  cases hsc : getStatusCodeProperty program m with
  | none => rfl
  | some prop =>
    obtain ⟨nm, ty⟩ := prop
    cases ty with
    | none => rfl
    | some t =>
      cases t with
      | str v => rfl
      | num v =>
        show (decide (200 ≤ v) && decide (v < 300)) = decide (200 ≤ v ∧ v < 300)
        by_cases h1 : (200 : Int) ≤ v <;> by_cases h2 : v < 300 <;>
          simp [h1, h2]
      | other => rfl

/-! Lemmas about inheritance chains in the reference-graph presentation. -/

theorem IsChain_unique {g : String → GModel} :
    ∀ {id : String} {l1 l2 : List String},
      IsChain g id l1 → IsChain g id l2 → l1 = l2 := by
  intro id l1 l2 h1
  induction h1 generalizing l2 with
  | root id hr =>
    intro h2
    cases h2 with
    | root _ _ => rfl
    | step _ b _ hb _ => rw [hr] at hb; cases hb
  | step id b l hb hc ih =>
    intro h2
    cases h2 with
    | root _ hr => rw [hr] at hb; cases hb
    | step _ b2 l2 hb2 hc2 =>
      rw [hb] at hb2
      injection hb2 with hbb
      subst hbb
      rw [ih hc2]

theorem IsChain_mem {g : String → GModel} :
    ∀ {x : String} {l : List String}, IsChain g x l →
      ∀ y ∈ l, ∃ s, IsChain g y s ∧ s.length ≤ l.length := by
  intro x l h
  induction h with
  | root id hr =>
    intro y hy
    rw [List.mem_singleton] at hy
    subst hy
    exact ⟨[y], IsChain.root y hr, Nat.le_refl _⟩
  | step id b l hb hc ih =>
    intro y hy
    rcases List.mem_cons.mp hy with rfl | hy2
    · exact ⟨y :: l, IsChain.step y b l hb hc, Nat.le_refl _⟩
    · obtain ⟨s, hs, hl⟩ := ih y hy2
      exact ⟨s, hs, Nat.le_succ_of_le hl⟩

theorem IsChain_nodup {g : String → GModel} :
    ∀ {x : String} {l : List String}, IsChain g x l → l.Nodup := by
  intro x l h
  induction h with
  | root id _ => simp
  | step id b l hb hc ih =>
    refine List.nodup_cons.mpr ⟨?_, ih⟩
    intro hid
    obtain ⟨s, hs, hl⟩ := IsChain_mem hc id hid
    have huniq : s = id :: l := IsChain_unique hs (IsChain.step id b l hb hc)
    rw [huniq] at hl
    simp at hl

theorem getAllPropertiesG_run {g : String → GModel} :
    ∀ {id : String} {l : List String}, IsChain g id l → ∀ acc : PropMap,
      ∃ r, ∀ f, l.length ≤ f → getAllPropertiesG g f id acc = some (r, l) := by
  intro id l h
  induction h with
  | root id hr =>
    intro acc
    refine ⟨setAll acc (g id).properties, ?_⟩
    intro f hf
    cases f with
    | zero => simp at hf
    | succ n => simp [getAllPropertiesG, hr]
  | step id b l hb hc ih =>
    intro acc
    obtain ⟨r, hr⟩ := ih (setAll acc (g id).properties)
    refine ⟨r, ?_⟩
    intro f hf
    cases f with
    | zero => simp at hf
    | succ n =>
      have hn : l.length ≤ n := by
        simp only [List.length_cons] at hf
        omega
      simp [getAllPropertiesG, hb, hr n hn]

/-! Claim C1. -/

/-- Claim C1, counterexample: the claim — the most-derived declaration wins,
so `flatten(Child)["id"]` equals Child's own declaration — is false on the
code. In the 3-level chain Grandparent → Parent → Child, all declaring
`id`, the flattened map sends `id` to the grandparent's declaration (the
source's `Map.set` overwrites on the leaf-to-base walk), which differs from
the child's own declaration. -/
theorem claim1_counterexample :
    mapGet (getAllProperties exChild none) "id" = some gpIdProp ∧
      gpIdProp ≠ childIdProp :=
  ⟨rfl, by decide⟩

/-- Claim C1, amended: for every object type and field name, the flattening
operation maps the name to the declaration from the base-most (root-most)
type of the inheritance chain that declares it — walking leaf to base, every
level overwrites an entry already present, so the last write wins (the key
does keep the position of its first, most-derived insertion). -/
theorem claim1_theorem (m : Model) (k : String) :
    mapGet (getAllProperties m none) k = baseMostDeclaration m k :=
  mapGet_getAllProperties m k

/-! Claim C2. -/

/-- Claim C2, counterexample: the claim — the returned field is the first
match in the candidate's flattened (inheritance-resolved) property map — is
false on the code. `exDerived` is selected as candidate because its
flattened fields contain `code` (inherited from `exBase`, second conjunct),
yet `getResultModelWithProperty` returns nothing, because it searches only
the candidate's directly declared properties. -/
theorem claim2_counterexample :
    getResultModelWithProperty exProg exOp codePred = none ∧
      filterModelProperties exDerived codePred = [exCodeProp] :=
  ⟨rfl, rfl⟩

/-- Claim C2, amended: the candidate object type is still selected, in
declaration order, by "its flattened field set contains a predicate match",
but the field returned with it is the first match among the candidate's
directly declared fields only; the result is absent when no candidate is
found, or when the chosen candidate's direct fields contain no match — which
does happen whenever the predicate only matches inherited fields. -/
theorem claim2_theorem (program : Program) (op : Operation)
    (predicate : ModelProperty → Bool) :
    getResultModelWithProperty program op predicate =
      (((operationObjectTypes (getHttpMetadata program op)).filter
          (fun m => (filterModelProperties m predicate).length > 0)).head?).bind
        (fun m =>
          (((m.properties.map Prod.snd).filter predicate).head?).map
            (fun p => (m, p))) := by
  simp only [getResultModelWithProperty]
  rw [filterResponseModels_eq]
  simp only [specNormalize]
  cases h : (operationObjectTypes (getHttpMetadata program op)).filter
      (fun m => (filterModelProperties m predicate).length > 0) with
  | nil => rfl
  | cons m ms =>
    cases h2 : (m.properties.map Prod.snd).filter predicate with
    | nil =>
      simp only [List.head?_cons, Option.some_bind', h2]
      rfl
    | cons p ps =>
      simp only [List.head?_cons, Option.some_bind', h2]
      rfl

/-! Claim C3. -/

/-- Claim C3: for every operation, the success classifier returns the first
response object type, in declaration order, that is not marked as an error
type and passes the status-code test (no tagged status-code field, or a
string literal starting with `"2"`, or a numeric literal in `[200, 300)`);
it is absent when no candidate survives. -/
theorem claim3_theorem (program : Program) (op : HttpOperation) :
    getSuccessResponse program op =
      ((operationObjectTypes op).filter
        (fun m => !(program.isErrorModel m) && specStatusAllows program m)).head? := by
  have hq : statusCodeFilter program = specStatusAllows program :=
    funext (statusCodeFilter_eq_spec program)
  have hsplit := filter_and_eq (fun m => !(program.isErrorModel m))
    (specStatusAllows program) (operationObjectTypes op)
  rw [hsplit, ← hq]
  simp only [getSuccessResponse]
  rw [filterResponseModels_eq]
  simp only [specNormalize]
  cases h : (operationObjectTypes op).filter
      (fun response => !(program.isErrorModel response)) with
  | nil => simp
  | cons c cs =>
    cases h2 : (c :: cs).filter (statusCodeFilter program) with
    | nil => simp [h2]
    | cons d ds => simp [h2]

/-! Claim C4. -/

/-- Claim C4: for every operation whose success classification is absent,
`getOperationResponse` emits exactly one `expected-success-response`
diagnostic targeting that operation through the diagnostic sink, and still
returns a value (the function is total — it neither throws nor aborts);
when the classification is non-absent it returns that object type and emits
no diagnostic. -/
theorem claim4_theorem (program : Program) (op : Operation) :
    (getOperationResponse program op).1 =
        getSuccessResponse program (getHttpMetadata program op) ∧
    (getSuccessResponse program (getHttpMetadata program op) = none →
      (getOperationResponse program op).2 =
        [⟨"expected-success-response", op⟩]) ∧
    (∀ m, getSuccessResponse program (getHttpMetadata program op) = some m →
      getOperationResponse program op = (some m, [])) := by
  simp only [getOperationResponse]
  cases h : getSuccessResponse program (getHttpMetadata program op) with
  | none =>
    refine ⟨rfl, fun _ => rfl, ?_⟩
    intro m hm
    cases hm
  | some m =>
    refine ⟨rfl, ?_, ?_⟩
    · intro hnone
      cases hnone
    · intro m2 hm2
      cases hm2
      rfl

/-- Claim C4, witness: on the concrete operation whose only response is an
error model, applying the theorem yields the single expected diagnostic. -/
theorem claim4_witness :
    (getOperationResponse errProg errOp).2 =
      [⟨"expected-success-response", errOp⟩] :=
  (claim4_theorem errProg errOp).2.1 rfl

/-! Claim C5. -/

/-- Claim C5: the normalizer returns the in-order sequence of all matching
object types across all responses when at least one matches, and returns
the absent sentinel — never an empty sequence — when nothing matched. -/
theorem claim5_theorem (op : HttpOperation) (pred : Model → Bool) :
    (filterResponseModels op pred = none ↔
      (operationObjectTypes op).filter pred = []) ∧
    ∀ ms, filterResponseModels op pred = some ms →
      ms = (operationObjectTypes op).filter pred ∧ ms ≠ [] := by
  rw [filterResponseModels_eq]
  simp only [specNormalize]
  cases h : (operationObjectTypes op).filter pred with
  | nil => simp
  | cons c cs =>
    constructor
    · simp
    · intro ms hms
      have hms2 : some (c :: cs) = some ms := hms
      cases hms2
      exact ⟨rfl, by simp⟩

/-- Claim C5, witness: on a concrete operation with one model response and
the always-true predicate, the returned sequence is the (nonempty) filtered
candidate sequence. -/
theorem claim5_witness :
    ([exDerived] : List Model) =
        (operationObjectTypes exOp.http).filter (fun _ => true) ∧
      ([exDerived] : List Model) ≠ [] :=
  (claim5_theorem exOp.http (fun _ => true)).2 [exDerived] rfl

/-! Claim C6. -/

/-- Claim C6, counterexample: the claim — on a graph violating acyclicity
the flattening must fail loudly and distinguishably rather than loop — is
false on the code, which has no visited-set or depth guard: on the cyclic
graph where a type is its own base, the recursion never completes for any
fuel bound, i.e. the source loops (in the graph presentation of the source
recursion), producing no distinguishable failure. -/
theorem claim6_counterexample : neverReturns cycGraph "A" := by
  intro f
  induction f with
  | zero => intro acc; rfl
  | succ n ih => intro acc; simp [getAllPropertiesG, cycGraph, ih]

/-- Claim C6, amended: for every object type whose inheritance chain is
acyclic (there is a finite chain `l` from the type to a root), flattening
terminates — a fuel bound of `l.length` (one unit per call, linear in the
chain depth) already suffices, the result no longer depends on the fuel —
and it visits exactly the types of the chain, each exactly once (the
visited list is `l`, which has no duplicates); this holds for chains of
unbounded depth. On a cyclic graph, however, the recursion has no guard and
never completes (see the counterexample) instead of failing with a distinct
error. -/
theorem claim6_theorem (g : String → GModel) (id : String) (l : List String)
    (h : IsChain g id l) (acc : PropMap) :
    l.Nodup ∧
      ∃ r, ∀ f, l.length ≤ f → getAllPropertiesG g f id acc = some (r, l) :=
  ⟨IsChain_nodup h, getAllPropertiesG_run h acc⟩

/-- Claim C6, witness: the two-node chain `B → A` of the concrete acyclic
graph is flattened with any fuel of at least its length 2, visiting `B`
then `A`, each once. -/
theorem claim6_witness :
    (["B", "A"] : List String).Nodup ∧
      ∃ r, ∀ f, (["B", "A"] : List String).length ≤ f →
        getAllPropertiesG exGraph f "B" [] = some (r, ["B", "A"]) :=
  claim6_theorem exGraph "B" ["B", "A"]
    (IsChain.step "B" "A" ["A"] rfl (IsChain.root "A" rfl)) []

/-! Claim C7. -/

/-- Claim C7: the normalizer handles each response body by shape — a
matching object-type body is appended; for a union body every variant's
inner type is tested and each matching object-type variant appended; for a
tuple body every element is tested the same way; non-object-type members
and any other body kind are ignored without error — and the candidate order
follows declaration order within each union and tuple and across responses
(the spec-level `specNormalize` spells out exactly this traversal). -/
theorem claim7_theorem (op : HttpOperation) (pred : Model → Bool) :
    filterResponseModels op pred = specNormalize op pred :=
  filterResponseModels_eq op pred

/-! Claim C8. -/

/-- Claim C8: flattening is deterministic and idempotent under repetition —
re-running `getAllProperties` over the result of a previous run returns the
same ordered map unchanged (same keys, same insertion order, same
declarations), and passing an explicitly fresh empty accumulator is the
same as passing none. -/
theorem claim8_theorem (m : Model) :
    getAllProperties m (some (getAllProperties m none)) =
        getAllProperties m none ∧
      getAllProperties m (some []) = getAllProperties m none := by
  have hbase : getAllProperties m none = setAll [] (chainProps m) := by
    rw [getAllProperties_eq]
    rfl
  constructor
  · rw [getAllProperties_eq m (some (getAllProperties m none)), hbase]
    show setAll (setAll [] (chainProps m)) (chainProps m) =
      setAll [] (chainProps m)
    exact setAll_idem (chainProps m) [] (by simp [keysOf])
  · rw [getAllProperties_eq m (some []), hbase]
    rfl

/-! Claim C9. -/

/-- Claim C9: when no success response exists, `getOperationResponse`
returns the absent value itself to its caller (the `response!` of the
source is only a type assertion), so every caller on this path receives
absence rather than a constructed object type. -/
theorem claim9_theorem (program : Program) (op : Operation)
    (h : getSuccessResponse program (getHttpMetadata program op) = none) :
    (getOperationResponse program op).1 = none := by
  simp [getOperationResponse, h]

/-- Claim C9, witness: the error-only concrete operation has no success
response, and `getOperationResponse` indeed hands back the absent value. -/
theorem claim9_witness : (getOperationResponse errProg errOp).1 = none :=
  claim9_theorem errProg errOp rfl

/-! Claim C10. -/

/-- Claim C10: the status-code lookup used by success classification
searches the flattened, inheritance-resolved field set (the first component
is an equivalence between finding a status-code property and the existence
of a tagged declaration visible in the flattened chain map), not only the
fields declared directly on the candidate; the second component shows every
returned field is such a flattened-chain value. Hence an inherited
status-code field determines whether the candidate passes the filter. -/
theorem claim10_theorem (program : Program) (m : Model) :
    ((getStatusCodeProperty program m).isSome = true ↔
      ∃ k f, baseMostDeclaration m k = some f ∧
        program.isStatusCode f = true) ∧
    (∀ f, getStatusCodeProperty program m = some f →
      program.isStatusCode f = true ∧
        ∃ k, baseMostDeclaration m k = some f) := by
  have hnd := nodup_keysOf_getAllProperties m
  have hmem : ∀ f : ModelProperty,
      f ∈ filterModelProperties m (fun prop => program.isStatusCode prop) ↔
        (program.isStatusCode f = true ∧
          ∃ k, baseMostDeclaration m k = some f) := by
    intro f
    unfold filterModelProperties
    rw [List.mem_filter, mem_values_iff _ hnd f]
    simp only [mapGet_getAllProperties]
    tauto
  have hsound : ∀ f, getStatusCodeProperty program m = some f →
      program.isStatusCode f = true ∧
        ∃ k, baseMostDeclaration m k = some f := by
    intro f hf
    refine (hmem f).mp ?_
    simp only [getStatusCodeProperty] at hf
    cases hfp : filterModelProperties m
        (fun prop => program.isStatusCode prop) with
    | nil =>
      rw [hfp] at hf
      cases hf
    | cons p t =>
      rw [hfp] at hf
      have hf2 : some p = some f := hf
      cases hf2
      exact List.mem_cons_self _ _
  refine ⟨?_, hsound⟩
  rw [Option.isSome_iff_exists]
  constructor
  · rintro ⟨f, hf⟩
    obtain ⟨hsc, k, hbd⟩ := hsound f hf
    exact ⟨k, f, hbd, hsc⟩
  · rintro ⟨k, f, hbd, hsc⟩
    have hf : f ∈ filterModelProperties m
        (fun prop => program.isStatusCode prop) :=
      (hmem f).mpr ⟨hsc, k, hbd⟩
    simp only [getStatusCodeProperty]
    cases hfp : filterModelProperties m
        (fun prop => program.isStatusCode prop) with
    | nil =>
      rw [hfp] at hf
      cases hf
    | cons p t => exact ⟨p, rfl⟩

/-- Claim C10, witness: on the concrete derived model whose status-code
field lives only on its base, the lookup does find a status-code property. -/
theorem claim10_witness : (getStatusCodeProperty exProg scDerived).isSome = true :=
  (claim10_theorem exProg scDerived).1.mpr ⟨"status", scProp, rfl, rfl⟩

end AzureUtils
